import Mathlib

/-!
Verification of the k6 execution-scheduler specification against the
repository sources.  Pure Go helpers (`strings.Split`, `strings.Cut`,
`strings.Join`) are re-implemented structurally on `List Char` so that every
definition evaluates inside the kernel.
-/

namespace K6

/-- Go `strings.Split(s, sep)` for a one-character separator, on `List Char`.
`splitChars sep []` is `[[]]`, matching Go's `Split("", sep) = [""]`. -/
def splitChars (sep : Char) : List Char → List (List Char)
  | [] => [[]]
  | c :: cs =>
    let r := splitChars sep cs
    if c = sep then [] :: r
    else
      match r with
      | [] => [[c]]
      | h :: t => (c :: h) :: t

/-- Go `strings.Split` on `String`, one-character separator. -/
def goSplit (s : String) (sep : Char) : List String :=
  (splitChars sep s.data).map String.mk

/-- Helper for `goCut`: returns the parts before and after the first
occurrence of `sep`, or `none` when `sep` does not occur. -/
def cutChars (sep : Char) : List Char → Option (List Char × List Char)
  | [] => none
  | c :: cs =>
    if c = sep then some ([], cs)
    else (cutChars sep cs).map (fun p => (c :: p.1, p.2))

/-- Go `strings.Cut(s, sep)` for a one-character separator: cuts around the
first instance of `sep`, returning `(before, after, found)`; when `sep` is
absent it returns `(s, "", false)`. -/
def goCut (s : String) (sep : Char) : String × String × Bool :=
  match cutChars sep s.data with
  | some (a, b) => (String.mk a, String.mk b, true)
  | none => (s, "", false)

/-- Go `strings.Join(elems, sep)`. -/
def goJoin (sep : String) : List String → String
  | [] => ""
  | [x] => x
  | x :: rest => x ++ sep ++ goJoin sep rest

/-!
Embedding of `extractNameAndDefault` (src/unnamed/part_000, lines 386-402).
The Go loop carries the mutable `name`, `isDefault` and `remainingArray`
variables; they become explicit accumulators of the recursion.
-/

/-- The loop body of `extractNameAndDefault`: walks the comma-separated
elements, remembering the last `name=...` value, whether a literal
`default` element occurred, and the remaining elements in order. -/
def extractLoop : List String → String → Bool → List String →
    String × Bool × List String
  | [], name, isDefault, acc => (name, isDefault, acc)
  | kv :: rest, name, isDefault, acc =>
    if kv = "default" then extractLoop rest name true acc
    else
      let c := goCut kv '='
      if c.1 = "name" then extractLoop rest c.2.1 isDefault acc
      else extractLoop rest name isDefault (acc ++ [kv])

/-- `extractNameAndDefault` from src/unnamed/part_000: splits `config` on
commas, extracts the name and the default marker, and rejoins the rest. -/
def extractNameAndDefault (config : String) : String × Bool × String :=
  let r := extractLoop (goSplit config ',') "" false []
  (r.1, r.2.1, goJoin "," r.2.2)

/-!
Embedding of `CompatibilityMode` and `ValidateCompatibilityMode`
(src/unnamed/part_001).
-/

/-- JS compatibility mode (src/unnamed/part_001). -/
inductive CompatibilityMode
  | extended
  | base
  | experimentalEnhanced
deriving DecidableEq

/-- Modelled from the spec: the enumer-generated `String` method for
`CompatibilityMode` is not under src/; the `go:generate` directive in
src/unnamed/part_001 (snake transform, `CompatibilityMode` prefix trimmed)
fixes the rendered names. -/
def CompatibilityMode.render : CompatibilityMode → String
  | .extended => "extended"
  | .base => "base"
  | .experimentalEnhanced => "experimental_enhanced"

/-- `CompatibilityModeValues` from the generated enumer code: all modes in
declaration order. -/
def CompatibilityModeValues : List CompatibilityMode :=
  [.extended, .base, .experimentalEnhanced]

/-- Modelled from the spec: the enumer-generated `CompatibilityModeString`
parser (not under src/) maps a rendered name back to its mode. -/
def CompatibilityModeString (s : String) : Option CompatibilityMode :=
  CompatibilityModeValues.find? (fun m => m.render == s)

/-- The error message built by `ValidateCompatibilityMode` on invalid input
(src/unnamed/part_001, lines 60-61). -/
def invalidCompatibilityMsg (val : String) : String :=
  "invalid compatibility mode \"" ++ val ++ "\". Use: \"" ++
    goJoin "\", \"" (CompatibilityModeValues.map CompatibilityMode.render) ++ "\""

/-- `ValidateCompatibilityMode` from src/unnamed/part_001, lines 51-64. -/
def ValidateCompatibilityMode (val : String) : Except String CompatibilityMode :=
  if val = "" then .ok .extended
  else
    match CompatibilityModeString val with
    | some cm => .ok cm
    | none => .error (invalidCompatibilityMsg val)

/-!
Embedding of `createSecretSources` (src/unnamed/part_000, lines 336-384).
The Go map `result` becomes an association list with unique keys, so that
`len(result)` is the list length.  The extension registry `ext.Get` and the
secret-source constructors are abstracted: only the `ConfigArgument` field
of the constructor parameters varies per call, so a constructor is a
function from that argument to a fallible source.
-/

/-- Lookup in the Go map modelled as an association list. -/
def mapLookup {α : Type} (m : List (String × α)) (k : String) : Option α :=
  (m.find? (fun p => p.1 == k)).map (fun p => p.2)

/-- Go map assignment `m[k] = v`: overwrite in place when the key exists,
append otherwise, keeping keys unique. -/
def mapInsert {α : Type} (m : List (String × α)) (k : String) (v : α) :
    List (String × α) :=
  if (mapLookup m k).isSome then
    m.map (fun p => if p.1 == k then (k, v) else p)
  else m ++ [(k, v)]

/-- The errors `createSecretSources` can return, one constructor per
`return nil, err` site (src/unnamed/part_000, lines 336-384). -/
inductive SecretsErr
  | parseLine (line : String)
  | unknownType (t line : String)
  | constructorFail (msg : String)
  | alreadyRegistered (t line : String)
  | twoDefaults (config : String)
deriving DecidableEq

/-- The `for _, line := range gs.Flags.SecretSource` loop of
`createSecretSources`.  `registry` stands for `ext.Get(ext.SecretSourceExtension)`
composed with the type assertion to `secretsource.Constructor`. -/
def createLoop {Source : Type} (registry : String → Option (String → Except String Source)) :
    List String → List (String × Source) → Except SecretsErr (List (String × Source))
  | [], result => .ok result
  | line :: rest, result =>
    match goCut line '=' with
    | (_, _, false) => .error (.parseLine line)
    | (t, config, true) =>
      match registry t with
      | none => .error (.unknownType t line)
      | some c =>
        let e := extractNameAndDefault config
        match c e.2.2 with
        | .error msg => .error (.constructorFail msg)
        | .ok src =>
          if (mapLookup result e.1).isSome then .error (.alreadyRegistered t line)
          else
            let result1 := mapInsert result e.1 src
            if e.2.1 then
              if (mapLookup result1 "default").isSome then .error (.twoDefaults e.2.2)
              else createLoop registry rest (mapInsert result1 "default" src)
            else createLoop registry rest result1

/-- `createSecretSources` from src/unnamed/part_000, lines 336-384: runs the
loop on the configured lines and, when exactly one entry was registered,
also stores it under `"default"`. -/
def createSecretSources {Source : Type}
    (registry : String → Option (String → Except String Source))
    (lines : List String) : Except SecretsErr (List (String × Source)) :=
  match createLoop registry lines [] with
  | .error e => .error e
  | .ok result =>
    if result.length = 1 then
      match result with
      | [] => .ok result
      | p :: _ => .ok (mapInsert result "default" p.2)
    else .ok result

/-!
Ramp Sequencer.  The scheduler sources are not part of the analyzed slice,
so the component is modelled from the spec (section 4.2).
-/

/-- Modelled from the spec: one ramp stage `{duration, target}` (the ramp
executor sources are not under src/).  Values are rationals so that linear
interpolation is exact. -/
structure Stage where
  duration : ℚ
  target : ℚ
deriving DecidableEq

/-- Total duration of a stage list: the last control point's cumulative
time. -/
def totalDur (stages : List Stage) : ℚ :=
  (stages.map Stage.duration).sum

/-- Modelled from the spec: the recursive core of `valueAt`.  `prev` is the
value at the start of the current stage (the previous control point's
target, initially `T_0`).  Inside a stage of positive duration the value is
the linear interpolation from `prev` to the stage target; at or past the
stage boundary evaluation moves to the next stage, so a zero-duration stage
is an instantaneous step. -/
def valueAtFrom (prev : ℚ) (elapsed : ℚ) : List Stage → ℚ
  | [] => prev
  | s :: rest =>
    if elapsed < s.duration then prev + (s.target - prev) * elapsed / s.duration
    else valueAtFrom s.target (elapsed - s.duration) rest

/-- Modelled from the spec: `valueAt(elapsed)` of the Ramp Sequencer
(section 4.2): `T_0` for `elapsed <= 0`, linear interpolation between the
`(cumulativeTime, target)` control points afterwards, holding the last
target once every stage is exhausted. -/
def rampValueAt (t0 : ℚ) (stages : List Stage) (elapsed : ℚ) : ℚ :=
  if elapsed ≤ 0 then t0 else valueAtFrom t0 elapsed stages

/-- The value at the end of the profile, seen from starting value `prev`:
the last stage's target, or `prev` when no stage remains. -/
def lastTargetFrom (prev : ℚ) : List Stage → ℚ
  | [] => prev
  | s :: rest => lastTargetFrom s.target rest

/-- Modelled from the spec: a sampler that evaluates the Ramp Sequencer
against a shared stage-list state; it reads the state and never writes it,
reflecting that `valueAt` is pure computation (section 5). -/
def rampSample (t0 elapsed : ℚ) (st : List Stage) : ℚ × List Stage :=
  (rampValueAt t0 st elapsed, st)

/-!
Worker Slot Pool.  Modelled from the spec (section 4.1): `acquire` hands out
an idle slot and marks it busy, `release` marks it idle again; both are
atomic, and arbitrary callers interleave them.
-/

/-- Modelled from the spec: `acquire` on the busy flags of the Worker Slot
Pool: returns the first idle slot's index and the flags with that slot
marked busy, or `none` when every slot is busy. -/
def acquire : List Bool → Option (Nat × List Bool)
  | [] => none
  | b :: rest =>
    if b then (acquire rest).map (fun p => (p.1 + 1, b :: p.2))
    else some (0, true :: rest)

/-- Modelled from the spec: `release` marks slot `i` idle. -/
def release (l : List Bool) (i : Nat) : List Bool := l.set i false

/-- A pool configuration: the busy flags plus the observation of which
caller currently holds which slot index. -/
structure PoolCfg where
  busy : List Bool
  held : List (Nat × Nat)

/-- Modelled from the spec: one atomic pool interaction by an arbitrary
caller `c`: a successful acquire (the caller now holds the returned index),
a failed acquire (`ok = false`, nothing changes), or a release of a held
slot. -/
inductive PoolStep : PoolCfg → PoolCfg → Prop
  | acq (cfg : PoolCfg) (c i : Nat) (b' : List Bool) :
      acquire cfg.busy = some (i, b') →
      PoolStep cfg ⟨b', (c, i) :: cfg.held⟩
  | acqFail (cfg : PoolCfg) :
      acquire cfg.busy = none →
      PoolStep cfg cfg
  | rel (cfg : PoolCfg) (c i : Nat) :
      (c, i) ∈ cfg.held →
      PoolStep cfg ⟨release cfg.busy i, cfg.held.erase (c, i)⟩

/-- Configurations reachable from the freshly initialized pool of size `N`
(all slots idle, nothing held) by any interleaving of acquire/release. -/
inductive PoolReach (N : Nat) : PoolCfg → Prop
  | init : PoolReach N ⟨List.replicate N false, []⟩
  | step {cfg cfg' : PoolCfg} :
      PoolReach N cfg → PoolStep cfg cfg' → PoolReach N cfg'

/-!
SharedIterations executor.  Modelled from the spec (section 4.3): workers
pull from a shared remaining-iteration counter until it is exhausted.
-/

/-- State of a SharedIterations run: the shared remaining budget and each
worker's completed-iteration count. -/
structure ShState where
  remaining : Nat
  done : List Nat

/-- Modelled from the spec: worker `w` pulls one iteration from the shared
counter; only possible while the budget is positive. -/
inductive ShStep : ShState → ShState → Prop
  | pull (s : ShState) (w : Nat) :
      w < s.done.length →
      0 < s.remaining →
      ShStep s ⟨s.remaining - 1, s.done.set w (s.done.getD w 0 + 1)⟩

/-- States reachable from budget `K` with `W` idle workers under any
interleaving of worker pulls. -/
inductive ShReach (K W : Nat) : ShState → Prop
  | init : ShReach K W ⟨K, List.replicate W 0⟩
  | step {s s' : ShState} : ShReach K W s → ShStep s s' → ShReach K W s'

/-!
PerVUIterations executor.  Modelled from the spec (section 4.3): each of the
`W` workers runs exactly `N` iterations then retires.
-/

/-- State of a PerVUIterations run: each worker's completed-iteration
count. -/
structure PvState where
  done : List Nat

/-- Modelled from the spec: worker `w` runs one more iteration, only while
it has not yet reached its per-worker budget `N`. -/
inductive PvStep (N : Nat) : PvState → PvState → Prop
  | iter (s : PvState) (w : Nat) :
      w < s.done.length →
      s.done.getD w 0 < N →
      PvStep N s ⟨s.done.set w (s.done.getD w 0 + 1)⟩

/-- States reachable with `W` workers of budget `N` under any interleaving
of worker iterations. -/
inductive PvReach (W N : Nat) : PvState → Prop
  | init : PvReach W N ⟨List.replicate W 0⟩
  | step {s s' : PvState} : PvReach W N s → PvStep N s s' → PvReach W N s'

/-!
Executor lifecycle state machine.  Modelled from the spec (section 4.3).
-/

/-- Modelled from the spec: the executor run states. -/
inductive Phase
  | pending
  | starting
  | running
  | gracefulStop
  | stopped
  | finished
deriving DecidableEq

/-- Executor bookkeeping: lifecycle phase, in-flight iteration count, total
iterations started, elapsed graceful-stop time and the configured
graceful-stop duration. -/
structure ExecSt where
  phase : Phase
  inflight : Nat
  started : Nat
  graceElapsed : Nat
  graceLimit : Nat
deriving DecidableEq

/-- Labels of the executor transitions. -/
inductive ExecLabel
  | startIter
  | completeIter
  | toStarting
  | toRunning
  | toGraceful
  | tick
  | finishOk
  | forceStop
  | cancel
deriving DecidableEq

/-- Modelled from the spec: the executor transition relation (section 4.3).
New iterations start only while `running`; reaching the terminal ramp
boundary enters `gracefulStop` and resets the grace clock; in-flight
iterations may still complete there while the clock ticks up to the
configured limit; draining to zero in-flight finishes the executor, the
limit elapsing force-stops it (cancelling the remaining in-flight
iterations), and external cancellation stops it from any state. -/
inductive ExecStep : ExecLabel → ExecSt → ExecSt → Prop
  | startIter {s : ExecSt} :
      s.phase = .running →
      ExecStep .startIter s
        { s with inflight := s.inflight + 1, started := s.started + 1 }
  | completeIter {s : ExecSt} :
      s.phase = .running ∨ s.phase = .gracefulStop →
      0 < s.inflight →
      ExecStep .completeIter s { s with inflight := s.inflight - 1 }
  | toStarting {s : ExecSt} :
      s.phase = .pending →
      ExecStep .toStarting s { s with phase := .starting }
  | toRunning {s : ExecSt} :
      s.phase = .starting →
      ExecStep .toRunning s { s with phase := .running }
  | toGraceful {s : ExecSt} :
      s.phase = .running →
      ExecStep .toGraceful s { s with phase := .gracefulStop, graceElapsed := 0 }
  | tick {s : ExecSt} :
      s.phase = .gracefulStop →
      s.graceElapsed < s.graceLimit →
      ExecStep .tick s { s with graceElapsed := s.graceElapsed + 1 }
  | finishOk {s : ExecSt} :
      s.phase = .gracefulStop →
      s.inflight = 0 →
      ExecStep .finishOk s { s with phase := .finished }
  | forceStop {s : ExecSt} :
      s.phase = .gracefulStop →
      s.graceLimit ≤ s.graceElapsed →
      ExecStep .forceStop s { s with phase := .stopped, inflight := 0 }
  | cancel {s : ExecSt} :
      ExecStep .cancel s { s with phase := .stopped, inflight := 0 }

/-!
Theorems.  Claim-side (spec-worded) definitions for refinement claims are
prefixed with `claim`.
-/

/-- Generic helper: the last element of `a :: l` with fallback `d` is the
last element of `l` with fallback `a`. -/
theorem getLast?_getD_cons {α : Type} (a d : α) (l : List α) :
    ((a :: l).getLast?).getD d = (l.getLast?).getD a := by
  cases l with
  | nil => rfl
  | cons b t =>
    rw [List.getLast?_cons_cons]
    obtain ⟨x, hx⟩ := Option.isSome_iff_exists.mp
      (List.getLast?_isSome.mpr (List.cons_ne_nil b t))
    rw [hx]
    rfl

/-- Claim side of C10: the name contribution of one comma-separated element:
the value after the first `=` when the key is `name`. -/
def claimNameOf (kv : String) : Option String :=
  if (goCut kv '=').1 = "name" then some (goCut kv '=').2.1 else none

/-- Claim side of C10: elements kept in `remaining`: neither a literal
`default` nor an element whose key is `name`. -/
def claimKeep (kv : String) : Bool :=
  !(kv == "default") && !((goCut kv '=').1 == "name")

/-- The loop of `extractNameAndDefault`, related to the claim-side
description of its three results. -/
theorem extractLoop_spec (l : List String) :
    ∀ (name : String) (isDefault : Bool) (acc : List String),
    extractLoop l name isDefault acc =
      ((l.filterMap claimNameOf).getLast?.getD name,
       isDefault || l.contains "default",
       acc ++ l.filter claimKeep) := by
  induction l with
  | nil => intro name isDefault acc; simp [extractLoop]
  | cons kv rest ih =>
    intro name isDefault acc
    by_cases hd : kv = "default"
    · subst hd
      rw [extractLoop, if_pos rfl, ih]
      have h1 : claimNameOf "default" = none := rfl
      have h2 : claimKeep "default" = false := rfl
      simp [h1, h2, List.contains_cons]
    · by_cases hn : (goCut kv '=').1 = "name"
      · rw [extractLoop, if_neg hd]
        simp only [hn, if_pos rfl]
        rw [ih]
        have h1 : claimNameOf kv = some (goCut kv '=').2.1 := by
          simp [claimNameOf, hn]
        have h2 : claimKeep kv = false := by
          simp [claimKeep, hn]
        simp [h1, h2, List.contains_cons, getLast?_getD_cons, Ne.symm hd]
      · rw [extractLoop, if_neg hd]
        simp only [hn, if_neg, ite_false]
        rw [ih]
        have h1 : claimNameOf kv = none := by simp [claimNameOf, hn]
        have h2 : claimKeep kv = true := by
          simp [claimKeep, hn, hd]
        simp [h1, h2, List.contains_cons, List.append_assoc, Ne.symm hd]

/-- Claim C10: `extractNameAndDefault` splits on commas and returns the
last `name=...` value (empty when none), whether some element is exactly
`default`, and the comma-join of the other elements in order with every
`default` and `name=...` element removed. -/
theorem c10_extract_name_and_default (config : String) :
    extractNameAndDefault config =
      (((goSplit config ',').filterMap claimNameOf).getLast?.getD "",
       (goSplit config ',').contains "default",
       goJoin "," ((goSplit config ',').filter claimKeep)) := by
  unfold extractNameAndDefault
  rw [extractLoop_spec]
  simp

/-- Claim C8: `ValidateCompatibilityMode` maps the empty string to
`(CompatibilityModeExtended, no error)`, every recognized name to its mode
with no error, and every other non-empty string to an error whose message
lists all valid mode names. -/
theorem c8_validate_compatibility_mode :
    (ValidateCompatibilityMode "" = .ok .extended) ∧
    (∀ m : CompatibilityMode, ValidateCompatibilityMode m.render = .ok m) ∧
    (∀ s : String, s ≠ "" → (∀ m : CompatibilityMode, m.render ≠ s) →
      ValidateCompatibilityMode s = .error (invalidCompatibilityMsg s) ∧
      ∀ m : CompatibilityMode, ∃ pre post,
        invalidCompatibilityMsg s = pre ++ m.render ++ post) := by
  refine ⟨rfl, ?_, ?_⟩
  · intro m; cases m <;> rfl
  · intro s hne hnr
    have hfind : CompatibilityModeString s = none := by
      apply List.find?_eq_none.mpr
      intro m _
      simp [hnr m]
    constructor
    · unfold ValidateCompatibilityMode
      rw [if_neg hne, hfind]
    · intro m
      cases m with
      | extended =>
        refine ⟨"invalid compatibility mode \"" ++ s ++ "\". Use: \"",
          "\", \"base\", \"experimental_enhanced\"", ?_⟩
        simp only [invalidCompatibilityMsg, CompatibilityMode.render,
          String.append_assoc]
        congr 1
      | base =>
        refine ⟨"invalid compatibility mode \"" ++ s ++ "\". Use: \"extended\", \"",
          "\", \"experimental_enhanced\"", ?_⟩
        simp only [invalidCompatibilityMsg, CompatibilityMode.render,
          String.append_assoc]
        congr 1
      | experimentalEnhanced =>
        refine ⟨"invalid compatibility mode \"" ++ s ++ "\". Use: \"extended\", \"base\", \"",
          "\"", ?_⟩
        simp only [invalidCompatibilityMsg, CompatibilityMode.render,
          String.append_assoc]
        congr 1

/-- Witness for C8 at the unrecognized input `"bogus"` and the recognized
input `"base"`. -/
theorem c8_validate_compatibility_mode_witness :
    ValidateCompatibilityMode "bogus" = .error (invalidCompatibilityMsg "bogus") ∧
    ValidateCompatibilityMode "base" = .ok .base :=
  ⟨(c8_validate_compatibility_mode.2.2 "bogus" (by decide)
      (by intro m; cases m <;> decide)).1,
   c8_validate_compatibility_mode.2.1 .base⟩

/-- Stage durations are nonnegative, hence so is the total duration. -/
theorem totalDur_nonneg (stages : List Stage)
    (hd : ∀ s ∈ stages, 0 ≤ s.duration) : 0 ≤ totalDur stages := by
  apply List.sum_nonneg
  intro x hx
  obtain ⟨s, hs, rfl⟩ := List.mem_map.mp hx
  exact hd s hs

/-- The total duration of `s :: rest`. -/
theorem totalDur_cons (s : Stage) (rest : List Stage) :
    totalDur (s :: rest) = s.duration + totalDur rest := by
  simp [totalDur]

/-- Past the whole profile the sequencer reports the last target. -/
theorem valueAtFrom_total (stages : List Stage) :
    ∀ (prev e : ℚ), (∀ s ∈ stages, 0 ≤ s.duration) → totalDur stages ≤ e →
    valueAtFrom prev e stages = lastTargetFrom prev stages := by
  induction stages with
  | nil => intro prev e _ _; rfl
  | cons s rest ih =>
    intro prev e hd h
    have hs : 0 ≤ s.duration := hd s (List.mem_cons_self s rest)
    have hrest : ∀ x ∈ rest, 0 ≤ x.duration :=
      fun x hx => hd x (List.mem_cons_of_mem s hx)
    have h0 : 0 ≤ totalDur rest := totalDur_nonneg rest hrest
    rw [totalDur_cons] at h
    have hnotlt : ¬ e < s.duration := by push_neg; linarith
    rw [valueAtFrom, if_neg hnotlt, lastTargetFrom]
    exact ih s.target (e - s.duration) hrest (by linarith)

/-- `lastTargetFrom` written with `getLast?`. -/
theorem lastTargetFrom_eq (l : List Stage) :
    ∀ prev : ℚ, lastTargetFrom prev l = ((l.getLast?).map Stage.target).getD prev := by
  induction l with
  | nil => intro prev; rfl
  | cons s rest ih =>
    intro prev
    rw [lastTargetFrom, ih]
    cases rest with
    | nil => rfl
    | cons b t =>
      rw [List.getLast?_cons_cons]
      obtain ⟨x, hx⟩ := Option.isSome_iff_exists.mp
        (List.getLast?_isSome.mpr (List.cons_ne_nil b t))
      rw [hx]
      rfl

/-- Inside a stage of the profile, the sequencer linearly interpolates from
the previous control point's value to the stage target. -/
theorem valueAtFrom_interp (pre : List Stage) (s : Stage) (post : List Stage) :
    ∀ (t0 e : ℚ), (∀ x ∈ pre, 0 ≤ x.duration) →
    totalDur pre ≤ e → e - totalDur pre < s.duration →
    valueAtFrom t0 e (pre ++ s :: post) =
      lastTargetFrom t0 pre +
        (s.target - lastTargetFrom t0 pre) * (e - totalDur pre) / s.duration := by
  induction pre with
  | nil =>
    intro t0 e _ h1 h2
    rw [totalDur] at h1 h2
    simp only [List.map_nil, List.sum_nil] at h1 h2
    rw [List.nil_append, valueAtFrom, if_pos (by linarith)]
    simp [lastTargetFrom, totalDur]
  | cons a pre ih =>
    intro t0 e hd h1 h2
    have ha : 0 ≤ a.duration := hd a (List.mem_cons_self a pre)
    have hpre : ∀ x ∈ pre, 0 ≤ x.duration :=
      fun x hx => hd x (List.mem_cons_of_mem a hx)
    have h0 : 0 ≤ totalDur pre := totalDur_nonneg pre hpre
    rw [totalDur_cons] at h1 h2
    have hnotlt : ¬ e < a.duration := by push_neg; linarith
    rw [List.cons_append, valueAtFrom, if_neg hnotlt]
    rw [ih a.target (e - a.duration) hpre (by linarith) (by linarith)]
    rw [lastTargetFrom, totalDur_cons]
    ring

/-- Counterexample to claim C4 as stated: for the profile with starting
value `0` and the single zero-duration stage of target `1`, the elapsed
time `0` is at the total duration, yet `valueAt` returns `T_0 = 0`, not the
last-stage target `1` — the claim's `elapsed <= 0` clause and its
`elapsed >= totalDuration` clause contradict each other there. -/
theorem c4_ramp_counterexample :
    (0 : ℚ) ≤ (Stage.mk 0 1).duration ∧
    totalDur [Stage.mk 0 1] ≤ 0 ∧
    ((([Stage.mk 0 1] : List Stage).getLast?).map Stage.target).getD 0 = 1 ∧
    rampValueAt 0 [Stage.mk 0 1] 0 = 0 ∧
    (0 : ℚ) ≠ 1 := by
  refine ⟨le_refl 0, ?_, rfl, rfl, by norm_num⟩
  simp [totalDur]

/-- Claim C4, amended: for stages of nonnegative duration, `valueAt` returns
`T_0` for every `elapsed <= 0`; it returns the last stage's target for every
`elapsed >= totalDuration` with `elapsed > 0` (the positivity proviso is
forced by the counterexample, where the two original clauses conflict at
`elapsed = 0`); and strictly between `0` and a stage boundary it linearly
interpolates between the surrounding `(cumulativeTime, target)` control
points. -/
theorem c4_ramp_amended (t0 : ℚ) (stages : List Stage) (e : ℚ)
    (hd : ∀ s ∈ stages, 0 ≤ s.duration) :
    (e ≤ 0 → rampValueAt t0 stages e = t0) ∧
    (0 < e → totalDur stages ≤ e →
      rampValueAt t0 stages e = ((stages.getLast?).map Stage.target).getD t0) ∧
    (∀ pre s post, stages = pre ++ s :: post → 0 < e →
      totalDur pre ≤ e → e - totalDur pre < s.duration →
      rampValueAt t0 stages e =
        lastTargetFrom t0 pre +
          (s.target - lastTargetFrom t0 pre) * (e - totalDur pre) / s.duration) := by
  refine ⟨?_, ?_, ?_⟩
  · intro he
    rw [rampValueAt, if_pos he]
  · intro he ht
    rw [rampValueAt, if_neg (not_le.mpr he), valueAtFrom_total stages t0 e hd ht,
      lastTargetFrom_eq]
  · intro pre s post hsplit he h1 h2
    subst hsplit
    have hpre : ∀ x ∈ pre, 0 ≤ x.duration :=
      fun x hx => hd x (List.mem_append.mpr (Or.inl hx))
    rw [rampValueAt, if_neg (not_le.mpr he)]
    exact valueAtFrom_interp pre s post t0 e hpre h1 h2

/-- Witness for the amended C4: a single stage ramping to `4` over `2` time
units, sampled before the start and past the end. -/
theorem c4_ramp_witness :
    rampValueAt 0 [Stage.mk 2 4] (-1) = 0 ∧
    rampValueAt 0 [Stage.mk 2 4] 3 =
      ((([Stage.mk 2 4] : List Stage).getLast?).map Stage.target).getD 0 := by
  have hd : ∀ s ∈ ([Stage.mk 2 4] : List Stage), 0 ≤ s.duration := by
    intro s hs
    rw [List.mem_singleton] at hs
    subst hs
    norm_num
  refine ⟨(c4_ramp_amended 0 [Stage.mk 2 4] (-1) hd).1 (by norm_num),
    (c4_ramp_amended 0 [Stage.mk 2 4] 3 hd).2.1 (by norm_num) ?_⟩
  simp [totalDur]
  norm_num

/-- Claim C5: a zero-duration stage is an instantaneous step: for every
positive elapsed time the profile behaves exactly as the remaining profile
started from the stage's target, and a lone zero-duration stage yields its
target at every positive time; a profile with no stages is the constant
function `T_0`. -/
theorem c5_ramp_edge_cases (t0 T e : ℚ) (rest : List Stage) :
    (0 < e → rampValueAt t0 (Stage.mk 0 T :: rest) e = rampValueAt T rest e) ∧
    (0 < e → rampValueAt t0 [Stage.mk 0 T] e = T) ∧
    (rampValueAt t0 [] e = t0) := by
  have step : ∀ rest' : List Stage, 0 < e →
      rampValueAt t0 (Stage.mk 0 T :: rest') e = rampValueAt T rest' e := by
    intro rest' he
    rw [rampValueAt, if_neg (not_le.mpr he), valueAtFrom,
      if_neg (by push_neg; simpa using le_of_lt he)]
    rw [rampValueAt, if_neg (not_le.mpr he)]
    norm_num
  refine ⟨step rest, fun he => ?_, ?_⟩
  · rw [step [] he, rampValueAt, if_neg (not_le.mpr he)]
    rfl
  · rw [rampValueAt]
    split
    · rfl
    · rfl

/-- Witness for C5 at `t0 = 7`, a zero-duration step to `3`, `elapsed = 5`. -/
theorem c5_ramp_edge_cases_witness :
    rampValueAt 7 [Stage.mk 0 3] 5 = 3 ∧ rampValueAt 7 [] 5 = 7 :=
  ⟨(c5_ramp_edge_cases 7 3 5 []).2.1 (by norm_num),
   (c5_ramp_edge_cases 7 3 5 []).2.2⟩

/-- Claim C6: sampling the Ramp Sequencer is deterministic and side-effect
free: equal elapsed inputs give equal values, the shared stage list is left
unchanged, and resampling after a first sample returns the same value. -/
theorem c6_ramp_deterministic (t0 e1 e2 : ℚ) (st : List Stage) (h : e1 = e2) :
    (rampSample t0 e1 st).1 = (rampSample t0 e2 st).1 ∧
    (rampSample t0 e1 st).2 = st ∧
    (rampSample t0 e2 (rampSample t0 e1 st).2).1 = (rampSample t0 e1 st).1 := by
  subst h
  exact ⟨rfl, rfl, rfl⟩

/-- Witness for C6 on a concrete profile. -/
theorem c6_ramp_deterministic_witness :
    (rampSample 1 2 [Stage.mk 4 9]).1 = (rampSample 1 2 [Stage.mk 4 9]).1 ∧
    (rampSample 1 2 [Stage.mk 4 9]).2 = [Stage.mk 4 9] ∧
    (rampSample 1 2 (rampSample 1 2 [Stage.mk 4 9]).2).1 =
      (rampSample 1 2 [Stage.mk 4 9]).1 :=
  c6_ramp_deterministic 1 2 2 [Stage.mk 4 9] rfl

/-- `acquire` only returns an idle slot and marks exactly that slot busy. -/
theorem acquire_sound : ∀ (l : List Bool) (i : Nat) (l' : List Bool),
    acquire l = some (i, l') → l[i]? = some false ∧ l' = l.set i true := by
  intro l
  induction l with
  | nil => intro i l' h; simp [acquire] at h
  | cons b rest ih =>
    intro i l' h
    cases b with
    | false =>
      simp only [acquire, if_neg (by decide : ¬ (false = true)),
        Option.some.injEq, Prod.mk.injEq] at h
      obtain ⟨rfl, rfl⟩ := h
      exact ⟨by simp, rfl⟩
    | true =>
      rw [acquire] at h
      cases hr : acquire rest with
      | none => rw [hr] at h; simp at h
      | some p =>
        rw [hr] at h
        simp only [if_pos rfl, Option.map_some, Option.some.injEq,
          Prod.mk.injEq] at h
        obtain ⟨rfl, rfl⟩ := h
        obtain ⟨ha, hb⟩ := ih p.1 p.2 hr
        refine ⟨by simpa using ha, ?_⟩
        show true :: p.2 = true :: rest.set p.1 true
        rw [hb]

/-- The pool invariant: the busy vector has size `N`, held slot indices are
pairwise distinct, and every held slot is marked busy. -/
def PoolInv (N : Nat) (cfg : PoolCfg) : Prop :=
  cfg.busy.length = N ∧
  cfg.held.Pairwise (fun p q => p.2 ≠ q.2) ∧
  ∀ p ∈ cfg.held, cfg.busy[p.2]? = some true

/-- The initial pool satisfies the invariant. -/
theorem poolInv_init (N : Nat) : PoolInv N ⟨List.replicate N false, []⟩ :=
  ⟨List.length_replicate N false, List.Pairwise.nil, by intro p hp; simp at hp⟩

/-- Every atomic pool interaction preserves the invariant. -/
theorem poolInv_step {N : Nat} {cfg cfg' : PoolCfg}
    (hinv : PoolInv N cfg) (hstep : PoolStep cfg cfg') : PoolInv N cfg' := by
  obtain ⟨hlen, hpw, hbusy⟩ := hinv
  cases hstep with
  | acq c i b' hacq =>
    obtain ⟨hidle, hset⟩ := acquire_sound cfg.busy i b' hacq
    have hiN : i < cfg.busy.length := (List.getElem?_eq_some_iff.mp hidle).1
    subst hset
    refine ⟨by rw [List.length_set]; exact hlen, ?_, ?_⟩
    · rw [List.pairwise_cons]
      refine ⟨?_, hpw⟩
      intro q hq heq
      have hqt := hbusy q hq
      rw [show q.2 = i from heq.symm, hidle] at hqt
      simp at hqt
    · intro p hp
      rcases List.mem_cons.mp hp with hp0 | hp'
      · subst hp0
        simpa using List.getElem?_set_self hiN
      · have hne : i ≠ p.2 := by
          intro heq
          have hqt := hbusy p hp'
          rw [← heq, hidle] at hqt
          simp at hqt
        rw [List.getElem?_set_ne hne]
        exact hbusy p hp'
  | acqFail h => exact ⟨hlen, hpw, hbusy⟩
  | rel c i hmem =>
    have hnodup : cfg.held.Nodup :=
      List.Pairwise.imp (fun hR heq => hR (congrArg Prod.snd heq)) hpw
    refine ⟨by rw [release, List.length_set]; exact hlen,
      List.Pairwise.sublist (List.erase_sublist _ _) hpw, ?_⟩
    intro p hp
    obtain ⟨hpne, hpmem⟩ := (hnodup.mem_erase_iff).mp hp
    have hp2 : p.2 ≠ i :=
      hpw.forall (fun a b hh => Ne.symm hh) hpmem hmem hpne
    rw [release, List.getElem?_set_ne (Ne.symm hp2)]
    exact hbusy p hpmem

/-- Every reachable pool configuration satisfies the invariant. -/
theorem poolReach_inv {N : Nat} {cfg : PoolCfg} (h : PoolReach N cfg) :
    PoolInv N cfg := by
  induction h with
  | init => exact poolInv_init N
  | step hr hs ih => exact poolInv_step ih hs

/-- Claim C1: in every configuration reachable by interleaved acquire and
release operations on a pool of size `N`, at most `N` slots are busy, and no
slot index is held by two distinct acquirers. -/
theorem c1_pool_safety (N : Nat) (cfg : PoolCfg) (h : PoolReach N cfg) :
    cfg.busy.count true ≤ N ∧
    ∀ c1 c2 i : Nat, (c1, i) ∈ cfg.held → (c2, i) ∈ cfg.held → c1 = c2 := by
  obtain ⟨hlen, hpw, _⟩ := poolReach_inv h
  constructor
  · calc cfg.busy.count true ≤ cfg.busy.length := List.count_le_length true cfg.busy
      _ = N := hlen
  · intro c1 c2 i h1 h2
    by_contra hne
    have hpair : (c1, i) ≠ (c2, i) := fun he => hne (congrArg Prod.fst he)
    exact hpw.forall (fun a b hh => Ne.symm hh) h1 h2 hpair rfl

/-- Witness for C1 after one concrete acquire on a pool of size 1. -/
theorem c1_pool_safety_witness : ([true] : List Bool).count true ≤ 1 :=
  (c1_pool_safety 1 ⟨[true], [(7, 0)]⟩
    (PoolReach.step PoolReach.init
      (PoolStep.acq ⟨List.replicate 1 false, []⟩ 7 0 [true] rfl))).1

/-- Incrementing one entry of a list of naturals raises its sum by one. -/
theorem sum_set_getD_succ : ∀ (l : List Nat) (w : Nat), w < l.length →
    (l.set w (l.getD w 0 + 1)).sum = l.sum + 1 := by
  intro l
  induction l with
  | nil => intro w h; exact absurd h (Nat.not_lt_zero w)
  | cons a t ih =>
    intro w h
    cases w with
    | zero =>
      show ((a + 1) :: t).sum = (a :: t).sum + 1
      rw [List.sum_cons, List.sum_cons]
      omega
    | succ w' =>
      have h' : w' < t.length := Nat.lt_of_succ_lt_succ h
      show (a :: t.set w' (t.getD w' 0 + 1)).sum = (a :: t).sum + 1
      rw [List.sum_cons, List.sum_cons, ih w' h']
      omega

/-- One worker pull preserves the SharedIterations invariant. -/
theorem shInv_step {K W : Nat} {s s' : ShState} (hstep : ShStep s s')
    (hsum : s.done.sum + s.remaining = K) (hlen : s.done.length = W) :
    s'.done.sum + s'.remaining = K ∧ s'.done.length = W := by
  cases hstep with
  | pull w hw hr0 =>
    constructor
    · show (s.done.set w (s.done.getD w 0 + 1)).sum + (s.remaining - 1) = K
      rw [sum_set_getD_succ s.done w hw]
      omega
    · show (s.done.set w (s.done.getD w 0 + 1)).length = W
      rw [List.length_set]
      exact hlen

/-- The SharedIterations invariant: completed plus remaining iterations
equal the budget, and the worker vector keeps its size. -/
theorem shReach_inv {K W : Nat} {s : ShState} (h : ShReach K W s) :
    s.done.sum + s.remaining = K ∧ s.done.length = W := by
  induction h with
  | init => exact ⟨by simp [List.sum_replicate], List.length_replicate W 0⟩
  | step hr hs ih => exact shInv_step hs ih.1 ih.2

/-- Claim C2: a SharedIterations executor with budget `K` and worker count
`W ≤ K` preserves `done + remaining = K` under every interleaving, so when
the shared counter is exhausted exactly `K` iterations have run; while the
counter is positive and a worker exists, progress is always possible. -/
theorem c2_shared_iterations (K W : Nat) (hWK : W ≤ K) (s : ShState)
    (h : ShReach K W s) :
    s.done.sum + s.remaining = K ∧
    (s.remaining = 0 → s.done.sum = K) ∧
    (0 < W → 0 < s.remaining → ∃ s', ShStep s s') := by
  obtain ⟨hsum, hlen⟩ := shReach_inv h
  refine ⟨hsum, fun h0 => by omega, fun hw hr => ?_⟩
  exact ⟨_, ShStep.pull s 0 (by omega) hr⟩

/-- Witness for C2: budget `2`, one worker, both iterations pulled. -/
theorem c2_shared_iterations_witness : ([2] : List Nat).sum = 2 :=
  (c2_shared_iterations 2 1 (by decide) ⟨0, [2]⟩
    (ShReach.step (ShReach.step ShReach.init
        (ShStep.pull ⟨2, [0]⟩ 0 (by decide) (by decide)))
      (ShStep.pull ⟨1, [1]⟩ 0 (by decide) (by decide)))).2.1 rfl

/-- One worker iteration preserves the PerVUIterations invariant. -/
theorem pvInv_step {W N : Nat} {s s' : PvState} (hstep : PvStep N s s')
    (hlen : s.done.length = W) (hbound : ∀ d ∈ s.done, d ≤ N) :
    s'.done.length = W ∧ ∀ d ∈ s'.done, d ≤ N := by
  cases hstep with
  | iter w hw hlt =>
    refine ⟨by rw [List.length_set]; exact hlen, ?_⟩
    intro d hd
    rcases List.mem_or_eq_of_mem_set hd with hmem | hd0
    · exact hbound d hmem
    · omega

/-- The PerVUIterations invariant: the worker vector keeps its size and no
worker exceeds its budget. -/
theorem pvReach_inv {W N : Nat} {s : PvState} (h : PvReach W N s) :
    s.done.length = W ∧ ∀ d ∈ s.done, d ≤ N := by
  induction h with
  | init =>
    refine ⟨List.length_replicate W 0, ?_⟩
    intro d hd
    rw [List.eq_of_mem_replicate hd]
    omega
  | step hr hs ih => exact pvInv_step hs ih.1 ih.2

/-- Claim C3: a PerVUIterations executor with `W` workers and `N` iterations
each never lets a worker exceed `N` iterations, and when no worker can run
any further iteration the total completed count is exactly `W * N`. -/
theorem c3_per_vu_iterations (W N : Nat) (s : PvState) (h : PvReach W N s) :
    (∀ d ∈ s.done, d ≤ N) ∧
    ((¬ ∃ s', PvStep N s s') → s.done.sum = W * N) := by
  obtain ⟨hlen, hbound⟩ := pvReach_inv h
  refine ⟨hbound, fun hnostep => ?_⟩
  have hall : ∀ d ∈ s.done, d = N := by
    intro d hd
    rcases List.mem_iff_getElem.mp hd with ⟨w, hw, hwd⟩
    subst hwd
    by_contra hne
    have hle := hbound _ hd
    have hlt : s.done.getD w 0 < N := by
      rw [List.getD_eq_getElem?_getD, List.getElem?_eq_getElem hw]
      simp
      omega
    exact hnostep ⟨_, PvStep.iter s w hw hlt⟩
  have hrep : s.done = List.replicate W N := List.eq_replicate_iff.mpr ⟨hlen, hall⟩
  rw [hrep, List.sum_replicate, smul_eq_mul]

/-- Witness for C3: one worker, budget one, after its only iteration. -/
theorem c3_per_vu_iterations_witness : ([1] : List Nat).sum = 1 * 1 :=
  (c3_per_vu_iterations 1 1 ⟨[1]⟩
    (PvReach.step PvReach.init (PvStep.iter ⟨[0]⟩ 0 (by decide) (by decide)))).2
    (by
      rintro ⟨s', hs⟩
      cases hs with
      | iter w hw hlt =>
        have hw' : w < 1 := by simpa using hw
        have hw0 : w = 0 := by omega
        subst hw0
        exact absurd hlt (by decide))

/-- Claim C7: from the `gracefulStop` phase no transition starts a new
iteration; a transition to `finished` is possible only with zero in-flight
iterations; a non-cancellation transition to `stopped` happens only once the
graceful-stop limit has elapsed and force-cancels the in-flight iterations;
draining to zero in-flight always enables the finish transition, and an
elapsed limit always enables the force-stop transition. -/
theorem c7_graceful_stop (l : ExecLabel) (s s' : ExecSt)
    (hstep : ExecStep l s s') (hg : s.phase = .gracefulStop) :
    s'.started = s.started ∧
    (s'.phase = .finished → s.inflight = 0) ∧
    (l ≠ .cancel → s'.phase = .stopped →
      s.graceLimit ≤ s.graceElapsed ∧ s'.inflight = 0) ∧
    (s.inflight = 0 → ExecStep .finishOk s { s with phase := .finished }) ∧
    (s.graceLimit ≤ s.graceElapsed →
      ExecStep .forceStop s { s with phase := .stopped, inflight := 0 }) := by
  have hfin : s.inflight = 0 → ExecStep .finishOk s { s with phase := .finished } :=
    fun h0 => ExecStep.finishOk hg h0
  have hforce : s.graceLimit ≤ s.graceElapsed →
      ExecStep .forceStop s { s with phase := .stopped, inflight := 0 } :=
    fun hge => ExecStep.forceStop hg hge
  cases hstep with
  | startIter h => rw [hg] at h; simp at h
  | completeIter hor hpos =>
    refine ⟨rfl, fun hf => ?_, fun _ hf => ?_, hfin, hforce⟩
    · rw [show ({ s with inflight := s.inflight - 1 } : ExecSt).phase = s.phase
        from rfl, hg] at hf
      simp at hf
    · rw [show ({ s with inflight := s.inflight - 1 } : ExecSt).phase = s.phase
        from rfl, hg] at hf
      simp at hf
  | toStarting h => rw [hg] at h; simp at h
  | toRunning h => rw [hg] at h; simp at h
  | toGraceful h => rw [hg] at h; simp at h
  | tick h hlt =>
    refine ⟨rfl, fun hf => ?_, fun _ hf => ?_, hfin, hforce⟩
    · rw [show ({ s with graceElapsed := s.graceElapsed + 1 } : ExecSt).phase = s.phase
        from rfl, hg] at hf
      simp at hf
    · rw [show ({ s with graceElapsed := s.graceElapsed + 1 } : ExecSt).phase = s.phase
        from rfl, hg] at hf
      simp at hf
  | finishOk h h0 =>
    refine ⟨rfl, fun _ => h0, fun _ hf => ?_, hfin, hforce⟩
    simp at hf
  | forceStop h hge =>
    exact ⟨rfl, fun hf => by simp at hf, fun _ _ => ⟨hge, rfl⟩, hfin, hforce⟩
  | cancel =>
    exact ⟨rfl, fun hf => by simp at hf, fun hl _ => absurd rfl hl, hfin, hforce⟩

/-- Witness for C7: the finish transition from a drained graceful stop. -/
theorem c7_graceful_stop_witness :
    (ExecSt.mk .finished 0 5 0 3).started = (ExecSt.mk .gracefulStop 0 5 0 3).started ∧
    (ExecSt.mk .gracefulStop 0 5 0 3).inflight = 0 :=
  have h := c7_graceful_stop .finishOk (ExecSt.mk .gracefulStop 0 5 0 3)
    (ExecSt.mk .finished 0 5 0 3)
    (ExecStep.finishOk rfl rfl) rfl
  ⟨h.1, h.2.1 rfl⟩

/-- A one-type registry whose constructor always succeeds, used to exercise
`createSecretSources` on concrete configuration lines. -/
def mockRegistry : String → Option (String → Except String Nat) :=
  fun t => if t = "mock" then some (fun _ => .ok 0) else none

/-- Counterexample to claim C9 as stated: the single line
`mock=name=default,default` parses, its type is registered, and its
constructor succeeds, yet `createSecretSources` returns an error instead of
a map: the code stores the source under its name `"default"` first and then
rejects its own entry as a second default. -/
theorem c9_create_secret_sources_counterexample :
    extractNameAndDefault "name=default,default" = ("default", true, "") ∧
    mockRegistry "mock" = some (fun _ => .ok 0) ∧
    createSecretSources mockRegistry ["mock=name=default,default"] =
      .error (.twoDefaults "") :=
  ⟨rfl, rfl, rfl⟩

/-- Claim C9, amended: a single well-formed configuration line whose source
constructs successfully yields, without error, a map containing `"default"`
mapped to the constructed source — unless the line both carries the
`default` marker and names the source `"default"`, in which case (per the
counterexample) the code errors out. -/
theorem c9_create_secret_sources_amended {Source : Type}
    (registry : String → Option (String → Except String Source))
    (line t config name rem : String) (isDefault : Bool)
    (c : String → Except String Source) (src : Source)
    (hcut : goCut line '=' = (t, config, true))
    (hreg : registry t = some c)
    (hext : extractNameAndDefault config = (name, isDefault, rem))
    (hok : c rem = .ok src)
    (hnotboth : ¬(isDefault = true ∧ name = "default")) :
    ∃ m, createSecretSources registry [line] = .ok m ∧
      mapLookup m "default" = some src := by
  have hname : isDefault = true → name ≠ "default" :=
    fun hd hn => hnotboth ⟨hd, hn⟩
  cases isDefault with
  | false =>
    have hloop : createLoop registry [line] [] = .ok [(name, src)] := by
      simp [createLoop, hcut, hreg, hext, hok, mapLookup, mapInsert]
    by_cases hnd : name = "default"
    · subst hnd
      refine ⟨[("default", src)], ?_, ?_⟩
      · simp [createSecretSources, hloop, mapInsert, mapLookup]
      · simp [mapLookup]
    · have hne : (name == "default") = false := beq_eq_false_iff_ne.mpr hnd
      refine ⟨[(name, src), ("default", src)], ?_, ?_⟩
      · simp [createSecretSources, hloop, mapInsert, mapLookup, hne]
      · simp [mapLookup, hne]
  | true =>
    have hne : (name == "default") = false := beq_eq_false_iff_ne.mpr (hname rfl)
    have hloop : createLoop registry [line] [] =
        .ok [(name, src), ("default", src)] := by
      simp [createLoop, hcut, hreg, hext, hok, mapLookup, mapInsert, hne]
    refine ⟨[(name, src), ("default", src)], ?_, ?_⟩
    · simp [createSecretSources, hloop]
    · simp [mapLookup, hne]

/-- Witness for the amended C9: one line of type `mock`, no name, no
default marker. -/
theorem c9_create_secret_sources_witness :
    ∃ m, createSecretSources mockRegistry ["mock=path"] = .ok m ∧
      mapLookup m "default" = some 0 :=
  c9_create_secret_sources_amended mockRegistry "mock=path" "mock" "path" ""
    "path" false (fun _ => .ok 0) 0 rfl rfl rfl rfl (by simp)

end K6
